import Mathlib

/-!
Verification of `src/scripts/nyc_scraper.py`: a bulk downloader of NYC TLC
trip-record parquet files.  The file embeds the scanner
(`get_existing_downloads`), the task planner (the planning loop of
`scrape_taxi_data`), the per-task download with error handling
(`download_file`), and the success/failure tally, and proves the spec's
properties about them.
-/

namespace NycScraper

/-- `pyRange a b` models Python `range(a, b)`: the list `[a, a+1, ..., b-1]`
(empty when `b ≤ a`).  Python ints are unbounded, so years and months are `Int`. -/
def pyRange (a b : Int) : List Int :=
  (List.range (b - a).toNat).map (fun i : Nat => a + (i : Int))

/-- One record of the `ExistingSet`: a `(data_type, year, month)` triple, as
produced by `get_existing_downloads` and consulted by the planner. -/
abbrev DownloadRecord := String × Int × Int

/-- Models Python `int(s)` applied to a directory name: an optional single sign
followed by one or more decimal digits; any other string raises `ValueError`,
modelled as `none`. -/
def digitsVal (l : List Char) : Option Nat :=
  match l with
  | [] => none
  | _ =>
    l.foldl
      (fun acc c =>
        acc.bind (fun n =>
          if 48 ≤ c.toNat ∧ c.toNat ≤ 57 then some (10 * n + (c.toNat - 48)) else none))
      (some 0)

/-- Python `int(s)` for the purposes of the scanner (sign plus digits). -/
def pyInt (s : String) : Option Int :=
  match s.data with
  | '-' :: rest => (digitsVal rest).map (fun n => -(n : Int))
  | '+' :: rest => (digitsVal rest).map (fun n => (n : Int))
  | l => (digitsVal l).map (fun n => (n : Int))

/-- Python `s.split('_')[0]`: the longest prefix of `s` not containing `'_'`
(the whole string when there is no underscore).  Used to extract the
`data_type` from a filename at line 43 of `nyc_scraper.py`. -/
def pySplitHead (s : String) : String :=
  String.mk (s.data.takeWhile (fun c => c ≠ '_'))

/-- Python `s.endswith('.parquet')` (line 41 of `nyc_scraper.py`). -/
def isParquetName (s : String) : Bool :=
  List.isSuffixOf ".parquet".data s.data

/-- A node of the modelled filesystem tree walked by the scanner: either a
plain file or a directory with named children (`os.listdir` plus
`os.path.isdir`).  The scanner never reads file contents, so files carry none. -/
inductive FSNode where
  | file : FSNode
  | dir : List (String × FSNode) → FSNode

/-- Lines 40-44: every entry of a month directory whose name ends in
`.parquet` contributes the record `(name.split('_')[0], year, month)`. -/
def recordsOfMonth (y m : Int) (mch : List (String × FSNode)) : List DownloadRecord :=
  mch.filterMap (fun e => if isParquetName e.1 then some (pySplitHead e.1, y, m) else none)

/-- Lines 32-46: entries of a year directory; non-directories are skipped
(line 34), names that do not parse as an integer are skipped (lines 45-46). -/
def recordsOfYear (y : Int) (ych : List (String × FSNode)) : List DownloadRecord :=
  ych.flatMap (fun e =>
    match e.2 with
    | FSNode.file => []
    | FSNode.dir mch =>
      match pyInt e.1 with
      | none => []
      | some m => recordsOfMonth y m mch)

/-- Lines 25-48: entries of the base directory; non-directories are skipped
(line 27), names that do not parse as an integer are skipped (lines 47-48). -/
def scanRecords (entries : List (String × FSNode)) : List DownloadRecord :=
  entries.flatMap (fun e =>
    match e.2 with
    | FSNode.file => []
    | FSNode.dir ych =>
      match pyInt e.1 with
      | none => []
      | some y => recordsOfYear y ych)

/-- `get_existing_downloads` (lines 16-50): `none` models a missing base path
(line 22 returns the empty set); otherwise the base directory's entries are
scanned and the records collected into a set. -/
def get_existing_downloads (base : Option (List (String × FSNode))) : Finset DownloadRecord :=
  match base with
  | none => ∅
  | some entries => (scanRecords entries).toFinset

/-- The skip tests of the planning loop (lines 110-114): month `m` of year `y`
is kept when it is not in the future (`y = current_year ∧ current_month < m`
fails) and not already in the existing set.  The loop runs `range(1, 13)`. -/
def monthsToDownload (dt : String) (ex : Finset DownloadRecord) (nY nM y : Int) : List Int :=
  (pyRange 1 13).filter (fun m => decide (¬(y = nY ∧ nM < m) ∧ (dt, y, m) ∉ ex))

/-- The `(year, month)` pairs the planner emits tasks for: the loop at lines
105-124 with `end_year` clamped to the current year (line 101).  `nY`/`nM` are
the current year and month (`datetime.now()`), fixed for the run. -/
def plannedMonths (sY eY : Int) (dt : String) (ex : Finset DownloadRecord)
    (nY nM : Int) : List (Int × Int) :=
  (pyRange sY (min eY nY + 1)).flatMap
    (fun y => (monthsToDownload dt ex nY nM y).map (fun m => (y, m)))

/-- The `(data_type, year, month)` triples of the tasks the planner emits. -/
def plannedTriples (sY eY : Int) (dt : String) (ex : Finset DownloadRecord)
    (nY nM : Int) : List DownloadRecord :=
  (plannedMonths sY eY dt ex nY nM).map (fun p => (dt, p.1, p.2))

/-- Line 91 of `nyc_scraper.py`. -/
def base_url : String := "https://d37ci6vzurychx.cloudfront.net/trip-data"

/-- Line 92 of `nyc_scraper.py`. -/
def base_path : String := "data/taxi_data"

/-- Python `str(i)` for an int: `Int.repr` renders exactly the same string
(decimal digits, `-` sign for negatives, no leading zeros, `"0"` for zero). -/
def pyStr (i : Int) : String := Int.repr i

/-- Python `s.zfill(w)` (line 116): left-pad with `'0'` to width `w`, keeping
a leading sign in front of the padding. -/
def pyZfill (s : String) (w : Nat) : String :=
  if w ≤ s.length then s
  else
    match s.data with
    | '-' :: rest => String.mk ('-' :: (List.replicate (w - s.length) '0' ++ rest))
    | '+' :: rest => String.mk ('+' :: (List.replicate (w - s.length) '0' ++ rest))
    | l => String.mk (List.replicate (w - s.length) '0' ++ l)

/-- `month_str = str(month).zfill(2)` (line 116). -/
def month_str (m : Int) : String := pyZfill (pyStr m) 2

/-- `file_name = f"{data_type}_tripdata_{year}-{month_str}.parquet"` (line 120). -/
def file_name (dt : String) (y m : Int) : String :=
  dt ++ "_tripdata_" ++ pyStr y ++ "-" ++ month_str m ++ ".parquet"

/-- The source URL of a task (line 121). -/
def taskUrl (dt : String) (y m : Int) : String :=
  base_url ++ "/" ++ file_name dt y m

/-- `year_path = os.path.join(base_path, str(year))` (line 106). -/
def year_path (y : Int) : String := base_path ++ "/" ++ pyStr y

/-- `month_path = os.path.join(year_path, month_str)` (line 117). -/
def month_path (y m : Int) : String := year_path y ++ "/" ++ month_str m

/-- `output_path = os.path.join(month_path, file_name)` (line 122). -/
def output_path (dt : String) (y m : Int) : String :=
  month_path y m ++ "/" ++ file_name dt y m

/-- The `download_tasks` list built by the planning loop (lines 104-124):
one `(url, output_path)` pair per non-skipped month, in loop order. -/
def download_tasks (sY eY : Int) (dt : String) (ex : Finset DownloadRecord)
    (nY nM : Int) : List (String × String) :=
  (plannedMonths sY eY dt ex nY nM).map
    (fun p => (taskUrl dt p.1 p.2, output_path dt p.1 p.2))

/-- The directories ensured by `create_directory_structure` inside the
planning loop (lines 105-118): every year in the clamped range gets its year
directory (line 107, before any month test), and exactly the non-skipped
months get their month directory (line 118). -/
def created_dirs (sY eY : Int) (dt : String) (ex : Finset DownloadRecord)
    (nY nM : Int) : List String :=
  (pyRange sY (min eY nY + 1)).flatMap
    (fun y => year_path y :: (monthsToDownload dt ex nY nM y).map (fun m => month_path y m))

/-- The requested grid minus the future, as the spec describes it: all
`(data_type, year, month)` with `start_year ≤ year ≤ end_year`,
`1 ≤ month ≤ 12`, excluding pairs after the current `(year, month)`. -/
def requestedGrid (sY eY : Int) (dt : String) (nY nM : Int) : Finset DownloadRecord :=
  (((Finset.Icc sY eY) ×ˢ (Finset.Icc (1 : Int) 12)).filter
    (fun p => ¬(nY < p.1 ∨ (p.1 = nY ∧ nM < p.2)))).image (fun p => (dt, p.1, p.2))

/-- The local filesystem seen by the download executor: an association list
from path to byte content (bytes as `Nat`). -/
abbrev FS := List (String × List Nat)

/-- `os.path.exists` and reading: the first binding of a path, if any. -/
def fsLookup (fs : FS) (p : String) : Option (List Nat) :=
  (fs.find? (fun e => e.1 == p)).map (fun e => e.2)

/-- `os.remove p` (and overwriting): drop every binding of `p`. -/
def fsErase (fs : FS) (p : String) : FS := fs.filter (fun e => e.1 != p)

/-- `open(p, 'wb')` plus the writes: bind `p` to the given content. -/
def fsWrite (fs : FS) (p : String) (content : List Nat) : FS :=
  (p, content) :: fsErase fs p

/-- What the network and disk do to one task, the only free behaviour of
`download_file` (lines 57-74): either `requests.get`/`raise_for_status` raises
before the output file is opened (`netErr`), or the fetch succeeds with the
given chunk list and the chunk-writing loop either completes (`ok chunks none`)
or raises at the j-th write (`ok chunks (some j)`). -/
inductive FetchOutcome where
  | netErr : FetchOutcome
  | ok : List (List Nat) → Option Nat → FetchOutcome

/-- Whether the outcome makes the task fail (any exception in the `try` body). -/
def isFailure : FetchOutcome → Bool
  | FetchOutcome.netErr => true
  | FetchOutcome.ok _ (some _) => true
  | FetchOutcome.ok _ none => false

/-- Line 68: `if chunk:` skips empty chunks, so only nonempty chunks are
written. -/
def writtenChunks (chunks : List (List Nat)) : List (List Nat) :=
  chunks.filter (fun c => !c.isEmpty)

/-- `download_file(url, output_path)` (lines 57-74) under a given outcome.
On success the file holds the concatenation of the nonempty chunks and the
result is `(output_path, True)`.  On any exception the handler removes the
output file if it exists (lines 71-74) and returns `(output_path, False)`. -/
def download_file (oc : FetchOutcome) (url outPath : String) (fs : FS) :
    (String × Bool) × FS :=
  match oc with
  | FetchOutcome.netErr =>
      ((outPath, false), if (fsLookup fs outPath).isSome then fsErase fs outPath else fs)
  | FetchOutcome.ok chunks none =>
      ((outPath, true), fsWrite fs outPath (writtenChunks chunks).flatten)
  | FetchOutcome.ok chunks (some j) =>
      let fsMid := fsWrite fs outPath ((writtenChunks chunks).take j).flatten
      ((outPath, false), if (fsLookup fsMid outPath).isSome then fsErase fsMid outPath else fsMid)

/-- The executor (lines 138-152) as observed through task results: every task
in the list is run through `download_file` with its own outcome; no outcome
aborts the processing of the remaining tasks. -/
def run_tasks : List ((String × String) × FetchOutcome) → FS →
    List (String × Bool) × FS
  | [], fs => ([], fs)
  | (t, oc) :: rest, fs =>
      let r := download_file oc t.1 t.2 fs
      let rs := run_tasks rest r.2
      (r.1 :: rs.1, rs.2)

/-- The aggregator (lines 131-151): fold the per-task results in arrival
order, incrementing `successful` on a true flag and `failed` on a false one. -/
def tally (results : List (String × Bool)) : Nat × Nat :=
  results.foldl
    (fun acc r => if r.2 then (acc.1 + 1, acc.2) else (acc.1, acc.2 + 1)) (0, 0)

/-- A concrete existing set holding every month of 2022 for `yellow`
(used to instantiate C10). -/
def allOf2022 : Finset DownloadRecord :=
  {("yellow", 2022, 1), ("yellow", 2022, 2), ("yellow", 2022, 3), ("yellow", 2022, 4),
   ("yellow", 2022, 5), ("yellow", 2022, 6), ("yellow", 2022, 7), ("yellow", 2022, 8),
   ("yellow", 2022, 9), ("yellow", 2022, 10), ("yellow", 2022, 11), ("yellow", 2022, 12)}

/-- The example tree for C9: a file whose name says (2020, 01) stored under
directories 2021/03. -/
def mismatchedTree : List (String × FSNode) :=
  [("2021", FSNode.dir
    [("03", FSNode.dir
      [("yellow_tripdata_2020-01.parquet", FSNode.file)])])]

/-! ### Planner membership lemmas -/

theorem mem_pyRange {a b y : Int} : y ∈ pyRange a b ↔ a ≤ y ∧ y < b := by
  simp only [pyRange, List.mem_map, List.mem_range]
  constructor
  · rintro ⟨i, hi, rfl⟩
    omega
  · intro h
    exact ⟨(y - a).toNat, by omega, by omega⟩

theorem pyRange_nodup (a b : Int) : (pyRange a b).Nodup := by
  rw [pyRange]
  refine List.Nodup.map ?_ (List.nodup_range _)
  intro i j hij
  have h : a + (i : Int) = a + (j : Int) := hij
  omega

theorem mem_monthsToDownload {dt : String} {ex : Finset DownloadRecord} {nY nM y m : Int} :
    m ∈ monthsToDownload dt ex nY nM y ↔
      1 ≤ m ∧ m ≤ 12 ∧ ¬(y = nY ∧ nM < m) ∧ (dt, y, m) ∉ ex := by
  simp only [monthsToDownload, List.mem_filter, mem_pyRange, decide_eq_true_eq]
  constructor
  · rintro ⟨⟨h1, h2⟩, h3, h4⟩
    exact ⟨h1, by omega, h3, h4⟩
  · rintro ⟨h1, h2, h3, h4⟩
    exact ⟨⟨h1, by omega⟩, h3, h4⟩

theorem mem_plannedMonths {sY eY : Int} {dt : String} {ex : Finset DownloadRecord}
    {nY nM y m : Int} :
    (y, m) ∈ plannedMonths sY eY dt ex nY nM ↔
      sY ≤ y ∧ y ≤ eY ∧ y ≤ nY ∧ 1 ≤ m ∧ m ≤ 12 ∧
        ¬(y = nY ∧ nM < m) ∧ (dt, y, m) ∉ ex := by
  simp only [plannedMonths, List.mem_flatMap, List.mem_map, mem_pyRange, mem_monthsToDownload]
  constructor
  · rintro ⟨y', ⟨hy1, hy2⟩, m', ⟨hm1, hm2, hm3, hm4⟩, heq⟩
    injection heq with h1 h2
    subst h1; subst h2
    exact ⟨hy1, by omega, by omega, hm1, hm2, hm3, hm4⟩
  · rintro ⟨h1, h2, h3, h4, h5, h6, h7⟩
    exact ⟨y, ⟨h1, by omega⟩, m, ⟨h4, h5, h6, h7⟩, rfl⟩

theorem mem_plannedTriples {sY eY : Int} {dt : String} {ex : Finset DownloadRecord}
    {nY nM : Int} {c : String} {y m : Int} :
    (c, y, m) ∈ plannedTriples sY eY dt ex nY nM ↔
      c = dt ∧ (y, m) ∈ plannedMonths sY eY dt ex nY nM := by
  simp only [plannedTriples, List.mem_map]
  constructor
  · rintro ⟨⟨y', m'⟩, hm, heq⟩
    have h1 : dt = c := congrArg (fun t => t.1) heq
    have h2 : y' = y := congrArg (fun t => t.2.1) heq
    have h3 : m' = m := congrArg (fun t => t.2.2) heq
    subst h1; subst h2; subst h3
    exact ⟨rfl, hm⟩
  · rintro ⟨rfl, hm⟩
    exact ⟨(y, m), hm, rfl⟩

/-- C2: the planner emits no task whose triple is already in the existing set,
none for a month strictly after the current month in the current year, and
enumerates no year beyond the current calendar year. -/
theorem planner_skips_existing_and_future (sY eY : Int) (dt : String)
    (ex : Finset DownloadRecord) (nY nM : Int) (hse : sY ≤ eY) (y m : Int)
    (hmem : (y, m) ∈ plannedMonths sY eY dt ex nY nM) :
    (dt, y, m) ∉ ex ∧ ¬(y = nY ∧ nM < m) ∧ y ≤ nY := by
  have h := mem_plannedMonths.mp hmem
  exact ⟨h.2.2.2.2.2.2, h.2.2.2.2.2.1, h.2.2.1⟩

/-- Witness for C2 at a concrete input: with existing set `{(yellow, 2023, 1)}`
and current date 2023-03, the pair (2023, 2) is planned and satisfies the
conclusion. -/
theorem planner_skips_existing_and_future_witness :
    (2023, 2) ∈ plannedMonths 2023 2023 "yellow" {("yellow", 2023, 1)} 2023 3 ∧
      (("yellow", (2023 : Int), (2 : Int)) ∉ ({("yellow", 2023, 1)} : Finset DownloadRecord) ∧
        ¬((2023 : Int) = 2023 ∧ (3 : Int) < 2) ∧ (2023 : Int) ≤ 2023) :=
  ⟨by decide,
    planner_skips_existing_and_future 2023 2023 "yellow" {("yellow", 2023, 1)} 2023 3
      (by decide) 2023 2 (by decide)⟩

/-- C4: rerunning the planner with the existing set augmented by the triples of
every task emitted by the first run yields an empty task list (with the same
current date). -/
theorem planner_idempotent (sY eY : Int) (dt : String) (ex : Finset DownloadRecord)
    (nY nM : Int) :
    download_tasks sY eY dt (ex ∪ (plannedTriples sY eY dt ex nY nM).toFinset) nY nM = [] := by
  have h : plannedMonths sY eY dt (ex ∪ (plannedTriples sY eY dt ex nY nM).toFinset) nY nM
      = [] := by
    rw [List.eq_nil_iff_forall_not_mem]
    rintro ⟨y, m⟩ hmem
    have hc := mem_plannedMonths.mp hmem
    apply hc.2.2.2.2.2.2
    rw [Finset.mem_union, List.mem_toFinset]
    right
    rw [mem_plannedTriples]
    refine ⟨rfl, mem_plannedMonths.mpr ⟨hc.1, hc.2.1, hc.2.2.1, hc.2.2.2.1, hc.2.2.2.2.1,
      hc.2.2.2.2.2.1, ?_⟩⟩
    intro hx
    exact hc.2.2.2.2.2.2 (Finset.mem_union_left _ hx)
  rw [download_tasks, h]
  rfl

/-! ### Decimal rendering: `Nat.repr` and `Int.repr` facts -/

theorem toDigitsCore_eq_digits (n : Nat) : ∀ (fuel : Nat) (acc : List Char),
    n < fuel → 0 < n →
    Nat.toDigitsCore 10 fuel n acc =
      ((Nat.digits 10 n).map Nat.digitChar).reverse ++ acc := by
  induction n using Nat.strong_induction_on with
  | _ n ih =>
    intro fuel acc hlt hpos
    match fuel, hlt with
    | fuel + 1, _ =>
      rw [Nat.toDigitsCore]
      have hdig : Nat.digits 10 n = n % 10 :: Nat.digits 10 (n / 10) :=
        Nat.digits_def' (by norm_num) hpos
      by_cases hz : n / 10 = 0
      · simp only [hz, if_pos]
        rw [hdig, hz]
        simp
      · simp only [hz, if_neg, if_false]
        have hdivlt : n / 10 < n := Nat.div_lt_self hpos (by norm_num)
        have hdivpos : 0 < n / 10 := Nat.pos_of_ne_zero hz
        rw [ih (n / 10) hdivlt fuel (Nat.digitChar (n % 10) :: acc) (by omega) hdivpos]
        rw [hdig]
        simp

theorem natRepr_eq_digits (n : Nat) (hpos : 0 < n) :
    Nat.repr n = String.mk (((Nat.digits 10 n).map Nat.digitChar).reverse) := by
  rw [Nat.repr, Nat.toDigits, toDigitsCore_eq_digits n (n + 1) [] (by omega) hpos,
    List.append_nil]
  rfl

theorem digitChar_bounds : ∀ d : Nat, d < 10 →
    48 ≤ (Nat.digitChar d).toNat ∧ (Nat.digitChar d).toNat ≤ 57 := by
  decide

theorem digitChar_injOn : ∀ d : Nat, d < 10 → ∀ e : Nat, e < 10 →
    Nat.digitChar d = Nat.digitChar e → d = e := by
  decide

theorem natRepr_chars (n : Nat) :
    ∀ c ∈ (Nat.repr n).data, 48 ≤ c.toNat ∧ c.toNat ≤ 57 := by
  rcases Nat.eq_zero_or_pos n with rfl | hpos
  · decide
  · rw [natRepr_eq_digits n hpos]
    intro c hc
    have hc2 : c ∈ ((Nat.digits 10 n).map Nat.digitChar).reverse := hc
    rw [List.mem_reverse, List.mem_map] at hc2
    obtain ⟨d, hd, rfl⟩ := hc2
    exact digitChar_bounds d (Nat.digits_lt_base (by norm_num) hd)

theorem natRepr_ne_nil (n : Nat) : (Nat.repr n).data ≠ [] := by
  rcases Nat.eq_zero_or_pos n with rfl | hpos
  · decide
  · rw [natRepr_eq_digits n hpos]
    intro h
    have h2 : ((Nat.digits 10 n).map Nat.digitChar).reverse = [] := h
    rw [List.reverse_eq_nil_iff, List.map_eq_nil_iff,
      Nat.digits_eq_nil_iff_eq_zero] at h2
    omega

theorem map_digitChar_inj {l1 l2 : List Nat} (h1 : ∀ d ∈ l1, d < 10)
    (h2 : ∀ d ∈ l2, d < 10)
    (h : l1.map Nat.digitChar = l2.map Nat.digitChar) : l1 = l2 := by
  induction l1 generalizing l2 with
  | nil =>
    cases l2 with
    | nil => rfl
    | cons b t2 => simp at h
  | cons a t ih =>
    cases l2 with
    | nil => simp at h
    | cons b t2 =>
      simp only [List.map_cons, List.cons.injEq] at h
      have ha : a = b :=
        digitChar_injOn a (h1 a (List.mem_cons_self a t)) b
          (h2 b (List.mem_cons_self b t2)) h.1
      rw [ha, ih (fun d hd => h1 d (List.mem_cons_of_mem a hd))
        (fun d hd => h2 d (List.mem_cons_of_mem b hd)) h.2]

theorem natRepr_injective {n m : Nat} (h : Nat.repr n = Nat.repr m) : n = m := by
  rcases Nat.eq_zero_or_pos n with rfl | hn <;> rcases Nat.eq_zero_or_pos m with rfl | hm
  · rfl
  · exfalso
    rw [natRepr_eq_digits m hm] at h
    have hd : ('0' : Char) :: [] = ((Nat.digits 10 m).map Nat.digitChar).reverse :=
      congrArg String.data h
    have hd2 : (Nat.digits 10 m).map Nat.digitChar = ['0'] := by
      rw [← List.reverse_reverse ((Nat.digits 10 m).map Nat.digitChar), ← hd]
      rfl
    have hdig : Nat.digits 10 m = [0] :=
      map_digitChar_inj (fun d hd => Nat.digits_lt_base (by norm_num) hd)
        (by intro d hd; simp at hd; omega) (by simpa using hd2)
    have := Nat.ofDigits_digits 10 m
    rw [hdig] at this
    simp [Nat.ofDigits] at this
    omega
  · exfalso
    rw [natRepr_eq_digits n hn] at h
    have hd : ((Nat.digits 10 n).map Nat.digitChar).reverse = ('0' : Char) :: [] :=
      congrArg String.data h
    have hd2 : (Nat.digits 10 n).map Nat.digitChar = ['0'] := by
      rw [← List.reverse_reverse ((Nat.digits 10 n).map Nat.digitChar), hd]
      rfl
    have hdig : Nat.digits 10 n = [0] :=
      map_digitChar_inj (fun d hd => Nat.digits_lt_base (by norm_num) hd)
        (by intro d hd; simp at hd; omega) (by simpa using hd2)
    have := Nat.ofDigits_digits 10 n
    rw [hdig] at this
    simp [Nat.ofDigits] at this
    omega
  · rw [natRepr_eq_digits n hn, natRepr_eq_digits m hm] at h
    have hd : ((Nat.digits 10 n).map Nat.digitChar).reverse
        = ((Nat.digits 10 m).map Nat.digitChar).reverse := congrArg String.data h
    rw [List.reverse_inj] at hd
    have hdig := map_digitChar_inj (fun d hdm => Nat.digits_lt_base (by norm_num) hdm)
      (fun d hdm => Nat.digits_lt_base (by norm_num) hdm) hd
    calc n = Nat.ofDigits 10 (Nat.digits 10 n) := (Nat.ofDigits_digits 10 n).symm
    _ = Nat.ofDigits 10 (Nat.digits 10 m) := by rw [hdig]
    _ = m := Nat.ofDigits_digits 10 m

theorem intRepr_data_negSucc (n : Nat) :
    (Int.repr (Int.negSucc n)).data = '-' :: (Nat.repr (n + 1)).data := rfl

theorem pyStr_injective {i j : Int} (h : pyStr i = pyStr j) : i = j := by
  rw [pyStr, pyStr] at h
  cases i with
  | ofNat n =>
    cases j with
    | ofNat m =>
      have : n = m := natRepr_injective h
      rw [this]
    | negSucc m =>
      exfalso
      have hd : (Nat.repr n).data = '-' :: (Nat.repr (m + 1)).data := by
        rw [← intRepr_data_negSucc]
        exact congrArg String.data h
      have hb := natRepr_chars n '-' (by rw [hd]; exact List.mem_cons_self _ _)
      revert hb
      decide
  | negSucc n =>
    cases j with
    | ofNat m =>
      exfalso
      have hd : (Nat.repr m).data = '-' :: (Nat.repr (n + 1)).data := by
        rw [← intRepr_data_negSucc]
        exact (congrArg String.data h).symm
      have hb := natRepr_chars m '-' (by rw [hd]; exact List.mem_cons_self _ _)
      revert hb
      decide
    | negSucc m =>
      have hd : '-' :: (Nat.repr (n + 1)).data = '-' :: (Nat.repr (m + 1)).data := by
        rw [← intRepr_data_negSucc, ← intRepr_data_negSucc]
        exact congrArg String.data h
      have h2 : Nat.repr (n + 1) = Nat.repr (m + 1) := by
        injection hd with _ ht
        exact String.ext ht
      have h3 : n + 1 = m + 1 := natRepr_injective h2
      have hnm : n = m := by omega
      rw [hnm]

theorem pyStr_chars (i : Int) :
    ∀ c ∈ (pyStr i).data, c = '-' ∨ (48 ≤ c.toNat ∧ c.toNat ≤ 57) := by
  cases i with
  | ofNat n =>
    intro c hc
    exact Or.inr (natRepr_chars n c hc)
  | negSucc n =>
    intro c hc
    rw [pyStr, intRepr_data_negSucc] at hc
    rcases List.mem_cons.mp hc with rfl | hc2
    · exact Or.inl rfl
    · exact Or.inr (natRepr_chars (n + 1) c hc2)

theorem pyStr_no_slash (i : Int) : ∀ c ∈ (pyStr i).data, c ≠ '/' := by
  intro c hc
  rcases pyStr_chars i c hc with rfl | hb
  · decide
  · intro heq
    subst heq
    revert hb
    decide

/-! ### Path strings -/

theorem str_data_append (a b : String) : (a ++ b).data = a.data ++ b.data := rfl

theorem pyZfill_chars (s : String) (w : Nat) :
    ∀ c ∈ (pyZfill s w).data, c ∈ s.data ∨ c = '0' ∨ c = '-' ∨ c = '+' := by
  intro c hc
  rw [pyZfill] at hc
  split at hc
  · exact Or.inl hc
  · split at hc
    next rest heq =>
      rcases List.mem_cons.mp hc with rfl | hc2
      · exact Or.inr (Or.inr (Or.inl rfl))
      · rcases List.mem_append.mp hc2 with hc3 | hc3
        · exact Or.inr (Or.inl (List.eq_of_mem_replicate hc3))
        · exact Or.inl (heq ▸ List.mem_cons_of_mem _ hc3)
    next rest heq =>
      rcases List.mem_cons.mp hc with rfl | hc2
      · exact Or.inr (Or.inr (Or.inr rfl))
      · rcases List.mem_append.mp hc2 with hc3 | hc3
        · exact Or.inr (Or.inl (List.eq_of_mem_replicate hc3))
        · exact Or.inl (heq ▸ List.mem_cons_of_mem _ hc3)
    next =>
      rcases List.mem_append.mp hc with hc3 | hc3
      · exact Or.inr (Or.inl (List.eq_of_mem_replicate hc3))
      · exact Or.inl hc3

theorem month_str_no_slash (m : Int) : ∀ c ∈ (month_str m).data, c ≠ '/' := by
  intro c hc
  rcases pyZfill_chars (pyStr m) 2 c hc with h | h | h | h
  · exact pyStr_no_slash m c h
  · subst h; decide
  · subst h; decide
  · subst h; decide

theorem month_str_inj12 {m m' : Int} (h1 : 1 ≤ m) (h2 : m ≤ 12) (h3 : 1 ≤ m')
    (h4 : m' ≤ 12) (h : month_str m = month_str m') : m = m' := by
  interval_cases m <;> interval_cases m' <;> revert h <;> decide

theorem noSlash_seg_cancel : ∀ (a b r s : List Char), (∀ c ∈ a, c ≠ '/') →
    (∀ c ∈ b, c ≠ '/') → a ++ '/' :: r = b ++ '/' :: s → a = b ∧ r = s := by
  intro a
  induction a with
  | nil =>
    intro b r s _ hb h
    cases b with
    | nil => simpa using h
    | cons d u =>
      exfalso
      simp only [List.nil_append, List.cons_append, List.cons.injEq] at h
      exact hb d (List.mem_cons_self d u) h.1.symm
  | cons c t ih =>
    intro b r s ha hb h
    cases b with
    | nil =>
      exfalso
      simp only [List.nil_append, List.cons_append, List.cons.injEq] at h
      exact ha c (List.mem_cons_self c t) h.1
    | cons d u =>
      simp only [List.cons_append, List.cons.injEq] at h
      obtain ⟨rfl, h2⟩ := h
      obtain ⟨h3, h4⟩ := ih u r s (fun x hx => ha x (List.mem_cons_of_mem c hx))
        (fun x hx => hb x (List.mem_cons_of_mem c hx)) h2
      exact ⟨by rw [h3], h4⟩

theorem year_path_data (y : Int) :
    (year_path y).data = base_path.data ++ '/' :: (pyStr y).data := by
  rw [year_path, str_data_append, str_data_append]
  simp [List.append_assoc]

theorem month_path_data (y m : Int) :
    (month_path y m).data
      = base_path.data ++ '/' :: ((pyStr y).data ++ '/' :: (month_str m).data) := by
  rw [month_path, str_data_append, str_data_append, year_path_data]
  simp [List.append_assoc]

theorem output_path_data (dt : String) (y m : Int) :
    (output_path dt y m).data
      = base_path.data ++ '/' :: ((pyStr y).data ++ '/' ::
          ((month_str m).data ++ '/' :: (file_name dt y m).data)) := by
  rw [output_path, str_data_append, str_data_append, month_path_data]
  simp [List.append_assoc]

theorem year_path_ne_month_path (y y' m : Int) : year_path y ≠ month_path y' m := by
  intro h
  have hd := congrArg String.data h
  rw [year_path_data, month_path_data] at hd
  have h2 := List.append_cancel_left hd
  injection h2 with _ h3
  have : '/' ∈ (pyStr y).data := by
    rw [h3]
    exact List.mem_append.mpr (Or.inr (List.mem_cons_self _ _))
  exact pyStr_no_slash y '/' this rfl

theorem month_path_inj {y y' m m' : Int} (hm1 : 1 ≤ m) (hm2 : m ≤ 12) (hm3 : 1 ≤ m')
    (hm4 : m' ≤ 12) (h : month_path y m = month_path y' m') : y = y' ∧ m = m' := by
  have hd := congrArg String.data h
  rw [month_path_data, month_path_data] at hd
  have h2 := List.append_cancel_left hd
  injection h2 with _ h3
  obtain ⟨h4, h5⟩ := noSlash_seg_cancel _ _ _ _ (pyStr_no_slash y) (pyStr_no_slash y') h3
  refine ⟨pyStr_injective (String.ext h4), ?_⟩
  exact month_str_inj12 hm1 hm2 hm3 hm4 (String.ext h5)

theorem output_path_inj {dt : String} {y y' m m' : Int} (hm1 : 1 ≤ m) (hm2 : m ≤ 12)
    (hm3 : 1 ≤ m') (hm4 : m' ≤ 12)
    (h : output_path dt y m = output_path dt y' m') : y = y' ∧ m = m' := by
  have hd := congrArg String.data h
  rw [output_path_data, output_path_data] at hd
  have h2 := List.append_cancel_left hd
  injection h2 with _ h3
  obtain ⟨h4, h5⟩ := noSlash_seg_cancel _ _ _ _ (pyStr_no_slash y) (pyStr_no_slash y') h3
  obtain ⟨h6, _⟩ := noSlash_seg_cancel _ _ _ _ (month_str_no_slash m)
    (month_str_no_slash m') h5
  refine ⟨pyStr_injective (String.ext h4), ?_⟩
  exact month_str_inj12 hm1 hm2 hm3 hm4 (String.ext h6)

/-! ### C5 and C10: destination disjointness and directory creation -/

theorem plannedMonths_nodup (sY eY : Int) (dt : String) (ex : Finset DownloadRecord)
    (nY nM : Int) : (plannedMonths sY eY dt ex nY nM).Nodup := by
  rw [plannedMonths, List.nodup_flatMap]
  constructor
  · intro y hy
    refine List.Nodup.map ?_ (List.Nodup.filter _ (pyRange_nodup 1 13))
    intro m1 m2 hm
    injection hm
  · have hnd := pyRange_nodup sY (min eY nY + 1)
    refine List.Pairwise.imp ?_ hnd
    intro y1 y2 hne p hp1 hp2
    rw [List.mem_map] at hp1 hp2
    obtain ⟨m1, _, rfl⟩ := hp1
    obtain ⟨m2, _, heq⟩ := hp2
    injection heq with h1 _
    exact hne h1.symm

/-- C5: no two tasks produced by one planner invocation share a destination
path. -/
theorem download_tasks_paths_nodup (sY eY : Int) (dt : String)
    (ex : Finset DownloadRecord) (nY nM : Int) :
    ((download_tasks sY eY dt ex nY nM).map Prod.snd).Nodup := by
  rw [download_tasks, List.map_map]
  refine List.Nodup.map_on ?_ (plannedMonths_nodup sY eY dt ex nY nM)
  intro p hp q hq hpq
  obtain ⟨y, m⟩ := p
  obtain ⟨y', m'⟩ := q
  have hb1 := mem_plannedMonths.mp hp
  have hb2 := mem_plannedMonths.mp hq
  have hpq2 : output_path dt y m = output_path dt y' m' := hpq
  obtain ⟨hy, hm⟩ := output_path_inj hb1.2.2.2.1 hb1.2.2.2.2.1 hb2.2.2.2.1
    hb2.2.2.2.2.1 hpq2
  rw [hy, hm]

/-- C10: every year in the clamped range gets its year directory created, even
when every month of that year is skipped; a month directory is created exactly
for the months that yield a task. -/
theorem created_dirs_spec (sY eY : Int) (dt : String) (ex : Finset DownloadRecord)
    (nY nM : Int) :
    (∀ y : Int, sY ≤ y → y ≤ min eY nY → year_path y ∈ created_dirs sY eY dt ex nY nM) ∧
      (∀ y m : Int, 1 ≤ m → m ≤ 12 →
        (month_path y m ∈ created_dirs sY eY dt ex nY nM ↔
          (y, m) ∈ plannedMonths sY eY dt ex nY nM)) := by
  constructor
  · intro y h1 h2
    rw [created_dirs]
    exact List.mem_flatMap.mpr ⟨y, mem_pyRange.mpr ⟨h1, by omega⟩, List.mem_cons_self _ _⟩
  · intro y m hm1 hm2
    constructor
    · intro hmem
      rw [created_dirs] at hmem
      obtain ⟨y', hy', hcase⟩ := List.mem_flatMap.mp hmem
      rcases List.mem_cons.mp hcase with heq | hmap
      · exact absurd heq.symm (year_path_ne_month_path y' y m)
      · obtain ⟨m', hm', heq⟩ := List.mem_map.mp hmap
        have hb := mem_monthsToDownload.mp hm'
        obtain ⟨hyy, hmm⟩ := month_path_inj hb.1 hb.2.1 hm1 hm2 heq
        subst hyy; subst hmm
        rw [plannedMonths]
        exact List.mem_flatMap.mpr ⟨y', hy', List.mem_map.mpr ⟨m', hm', rfl⟩⟩
    · intro hmem
      have hc := mem_plannedMonths.mp hmem
      rw [created_dirs]
      refine List.mem_flatMap.mpr ⟨y, mem_pyRange.mpr ⟨hc.1, by omega⟩, ?_⟩
      refine List.mem_cons.mpr (Or.inr (List.mem_map.mpr ⟨m, ?_, rfl⟩))
      exact mem_monthsToDownload.mpr ⟨hc.2.2.2.1, hc.2.2.2.2.1, hc.2.2.2.2.2.1,
        hc.2.2.2.2.2.2⟩

/-- Witness for C10 at a concrete input: with every month of 2022 already
present (so 2022 yields no task) and current date 2023-01, the year directory
of 2022 is still created, and the month-directory equivalence holds at
(2023, 1). -/
theorem created_dirs_spec_witness :
    year_path 2022 ∈ created_dirs 2022 2023 "yellow" allOf2022 2023 1 ∧
      (month_path 2023 1 ∈ created_dirs 2022 2023 "yellow" allOf2022 2023 1 ↔
        (2023, 1) ∈ plannedMonths 2022 2023 "yellow" allOf2022 2023 1) :=
  ⟨(created_dirs_spec 2022 2023 "yellow" allOf2022 2023 1).1 2022 (by decide) (by decide),
    (created_dirs_spec 2022 2023 "yellow" allOf2022 2023 1).2 2023 1 (by decide) (by decide)⟩

/-! ### C3 and C9: scanner characterization -/

theorem mem_recordsOfMonth {y m : Int} {mch : List (String × FSNode)}
    {r : DownloadRecord} :
    r ∈ recordsOfMonth y m mch ↔
      ∃ fn fnode, (fn, fnode) ∈ mch ∧ isParquetName fn = true ∧
        (pySplitHead fn, y, m) = r := by
  simp only [recordsOfMonth, List.mem_filterMap]
  constructor
  · rintro ⟨⟨fn, fnode⟩, hmem, hsome⟩
    by_cases hp : isParquetName fn
    · rw [if_pos hp] at hsome
      exact ⟨fn, fnode, hmem, hp, Option.some.inj hsome⟩
    · rw [if_neg hp] at hsome
      exact absurd hsome (Option.noConfusion)
  · rintro ⟨fn, fnode, hmem, hp, heq⟩
    refine ⟨(fn, fnode), hmem, ?_⟩
    rw [if_pos hp, heq]

theorem mem_recordsOfYear {y : Int} {ych : List (String × FSNode)}
    {r : DownloadRecord} :
    r ∈ recordsOfYear y ych ↔
      ∃ mn mch, (mn, FSNode.dir mch) ∈ ych ∧
        ∃ m : Int, pyInt mn = some m ∧ r ∈ recordsOfMonth y m mch := by
  simp only [recordsOfYear, List.mem_flatMap]
  constructor
  · rintro ⟨⟨mn, mnode⟩, hmem, hr⟩
    cases mnode with
    | file => simp at hr
    | dir mch =>
      rcases hmi : pyInt mn with _ | mv
      · rw [hmi] at hr
        simp at hr
      · rw [hmi] at hr
        exact ⟨mn, mch, hmem, mv, hmi, hr⟩
  · rintro ⟨mn, mch, hmem, m, hmi, hr⟩
    refine ⟨(mn, FSNode.dir mch), hmem, ?_⟩
    simp only [hmi]
    exact hr

theorem mem_scanRecords {entries : List (String × FSNode)} {r : DownloadRecord} :
    r ∈ scanRecords entries ↔
      ∃ yn ych, (yn, FSNode.dir ych) ∈ entries ∧
        ∃ y : Int, pyInt yn = some y ∧ r ∈ recordsOfYear y ych := by
  simp only [scanRecords, List.mem_flatMap]
  constructor
  · rintro ⟨⟨yn, ynode⟩, hmem, hr⟩
    cases ynode with
    | file => simp at hr
    | dir ych =>
      rcases hyi : pyInt yn with _ | yv
      · rw [hyi] at hr
        simp at hr
      · rw [hyi] at hr
        exact ⟨yn, ych, hmem, yv, hyi, hr⟩
  · rintro ⟨yn, ych, hmem, y, hyi, hr⟩
    refine ⟨(yn, FSNode.dir ych), hmem, ?_⟩
    simp only [hyi]
    exact hr

/-- C3: a triple is in the scanner's set exactly when the base directory has an
integer-named year directory, inside it an integer-named month directory, and
inside that an entry whose name ends in `.parquet` whose part before the first
underscore is the category; everything else contributes nothing, and the set
holds one record per distinct triple. -/
theorem scanner_characterization (entries : List (String × FSNode)) (c : String)
    (y m : Int) :
    (c, y, m) ∈ get_existing_downloads (some entries) ↔
      ∃ yn ych, (yn, FSNode.dir ych) ∈ entries ∧ pyInt yn = some y ∧
        ∃ mn mch, (mn, FSNode.dir mch) ∈ ych ∧ pyInt mn = some m ∧
          ∃ fn fnode, (fn, fnode) ∈ mch ∧ isParquetName fn = true ∧
            pySplitHead fn = c := by
  rw [get_existing_downloads, List.mem_toFinset, mem_scanRecords]
  constructor
  · rintro ⟨yn, ych, hyn, y', hyi, hr⟩
    rw [mem_recordsOfYear] at hr
    obtain ⟨mn, mch, hmn, m', hmi, hr2⟩ := hr
    rw [mem_recordsOfMonth] at hr2
    obtain ⟨fn, fnode, hfn, hp, heq⟩ := hr2
    have hc : pySplitHead fn = c := congrArg (fun t => t.1) heq
    have hy : y' = y := congrArg (fun t => t.2.1) heq
    have hm : m' = m := congrArg (fun t => t.2.2) heq
    subst hy; subst hm
    exact ⟨yn, ych, hyn, hyi, mn, mch, hmn, hmi, fn, fnode, hfn, hp, hc⟩
  · rintro ⟨yn, ych, hyn, hyi, mn, mch, hmn, hmi, fn, fnode, hfn, hp, hc⟩
    refine ⟨yn, ych, hyn, y, hyi, ?_⟩
    rw [mem_recordsOfYear]
    refine ⟨mn, mch, hmn, m, hmi, ?_⟩
    rw [mem_recordsOfMonth]
    exact ⟨fn, fnode, hfn, hp, by rw [hc]⟩

/-- C9: the scanner takes year and month from the enclosing directory names,
never from the date in the filename: a file named for (2020, 01) stored under
2021/03 is recorded as ("yellow", 2021, 3), not ("yellow", 2020, 1). -/
theorem scanner_trusts_directory_names :
    get_existing_downloads (some mismatchedTree) = {("yellow", 2021, 3)} ∧
      ("yellow", (2020 : Int), (1 : Int)) ∉ get_existing_downloads (some mismatchedTree) := by
  constructor
  · decide
  · decide

/-! ### C1: coverage of the requested grid -/

theorem mem_requestedGrid {sY eY : Int} {dt : String} {nY nM : Int} {c : String}
    {y m : Int} :
    (c, y, m) ∈ requestedGrid sY eY dt nY nM ↔
      c = dt ∧ sY ≤ y ∧ y ≤ eY ∧ 1 ≤ m ∧ m ≤ 12 ∧
        ¬(nY < y ∨ (y = nY ∧ nM < m)) := by
  simp only [requestedGrid, Finset.mem_image, Finset.mem_filter, Finset.mem_product,
    Finset.mem_Icc]
  constructor
  · rintro ⟨⟨y', m'⟩, ⟨⟨⟨h1, h2⟩, h3, h4⟩, h5⟩, heq⟩
    have hc : dt = c := congrArg (fun t => t.1) heq
    have hy : y' = y := congrArg (fun t => t.2.1) heq
    have hm : m' = m := congrArg (fun t => t.2.2) heq
    subst hc; subst hy; subst hm
    exact ⟨rfl, h1, h2, h3, h4, h5⟩
  · rintro ⟨rfl, h1, h2, h3, h4, h5⟩
    exact ⟨(y, m), ⟨⟨⟨h1, h2⟩, h3, h4⟩, h5⟩, rfl⟩

/-- C1 (amended): for every run, the part of the `ExistingSet` that lies in the
requested grid, together with the triples of the emitted tasks (which are the
successfully downloaded ones when every download succeeds), covers the grid
minus the months in the future exactly. -/
theorem existing_union_planned_eq_grid (sY eY : Int) (dt : String)
    (ex : Finset DownloadRecord) (nY nM : Int) :
    (ex.filter (fun t => t ∈ requestedGrid sY eY dt nY nM)) ∪
        (plannedTriples sY eY dt ex nY nM).toFinset = requestedGrid sY eY dt nY nM := by
  ext t
  obtain ⟨c, y, m⟩ := t
  rw [Finset.mem_union, Finset.mem_filter, List.mem_toFinset, mem_plannedTriples,
    mem_requestedGrid, mem_plannedMonths]
  constructor
  · rintro (⟨hex, rfl, h1, h2, h3, h4, h5⟩ | ⟨rfl, h1, h2, h3, h4, h5, h6, h7⟩)
    · exact ⟨rfl, h1, h2, h3, h4, h5⟩
    · exact ⟨rfl, h1, h2, h4, h5, by omega⟩
  · rintro ⟨rfl, h1, h2, h3, h4, h5⟩
    by_cases hx : (c, y, m) ∈ ex
    · exact Or.inl ⟨hx, rfl, h1, h2, h3, h4, h5⟩
    · exact Or.inr ⟨rfl, h1, h2, by omega, h3, h4, by omega, hx⟩

/-- C1 as stated is false: with an `ExistingSet` entry outside the requested
grid (a `green` record while `yellow` is requested) and one of the two emitted
tasks failing, the plain union of the `ExistingSet` and the successfully
downloaded triples is not the grid minus the future. -/
theorem existing_union_succeeded_ne_grid :
    ({("yellow", 2023, 1)} : Finset DownloadRecord) ⊆
        (plannedTriples 2023 2023 "yellow" {("green", 2019, 5)} 2023 2).toFinset ∧
      ({("green", 2019, 5)} : Finset DownloadRecord) ∪ {("yellow", 2023, 1)} ≠
        requestedGrid 2023 2023 "yellow" 2023 2 := by
  constructor
  · decide
  · decide

/-! ### C6: failure handling and isolation -/

theorem fsLookup_erase (fs : FS) (p : String) : fsLookup (fsErase fs p) p = none := by
  have h : (fsErase fs p).find? (fun e => e.1 == p) = none := by
    rw [List.find?_eq_none]
    intro e he
    rw [fsErase, List.mem_filter] at he
    simpa using he.2
  rw [fsLookup, h]
  rfl

theorem download_file_fst (oc : FetchOutcome) (url outPath : String) (fs : FS) :
    (download_file oc url outPath fs).1 = (outPath, !isFailure oc) := by
  cases oc with
  | netErr => rfl
  | ok chunks wf => cases wf <;> rfl

/-- C6: any failure is contained in its task: the result is
`(output_path, False)`, no file remains at the destination path afterwards,
and in the executor every task's result is a function of that task's own
outcome alone, so a failure never aborts or alters a sibling task. -/
theorem download_failure_contained :
    (∀ (oc : FetchOutcome) (url outPath : String) (fs : FS), isFailure oc = true →
      (download_file oc url outPath fs).1 = (outPath, false) ∧
        fsLookup (download_file oc url outPath fs).2 outPath = none) ∧
      (∀ (l : List ((String × String) × FetchOutcome)) (fs : FS),
        (run_tasks l fs).1 = l.map (fun q => (q.1.2, !isFailure q.2))) := by
  constructor
  · intro oc url outPath fs hf
    refine ⟨by rw [download_file_fst, hf]; rfl, ?_⟩
    cases oc with
    | netErr =>
      rw [download_file]
      by_cases hex : (fsLookup fs outPath).isSome
      · rw [if_pos hex]
        exact fsLookup_erase fs outPath
      · rw [if_neg hex]
        exact Option.not_isSome_iff_eq_none.mp hex
    | ok chunks wf =>
      cases wf with
      | none => simp [isFailure] at hf
      | some j =>
        rw [download_file]
        by_cases hex : (fsLookup (fsWrite fs outPath
            ((writtenChunks chunks).take j).flatten) outPath).isSome
        · rw [if_pos hex]
          exact fsLookup_erase _ outPath
        · rw [if_neg hex]
          exact Option.not_isSome_iff_eq_none.mp hex
  · intro l
    induction l with
    | nil => intro fs; rfl
    | cons q rest ih =>
      intro fs
      obtain ⟨⟨u, p⟩, oc⟩ := q
      rw [run_tasks, List.map_cons]
      rw [ih]
      rw [download_file_fst]

/-- Witness for C6 at a concrete input: a network failure on a task whose
destination already holds stale bytes yields a failed result and no file at
the destination. -/
theorem download_failure_contained_witness :
    (download_file FetchOutcome.netErr "u" "p" [("p", [7])]).1 = ("p", false) ∧
      fsLookup (download_file FetchOutcome.netErr "u" "p" [("p", [7])]).2 "p" = none :=
  download_failure_contained.1 FetchOutcome.netErr "u" "p" [("p", [7])] (by decide)

/-! ### C8: the aggregator -/

theorem tally_foldl (results : List (String × Bool)) : ∀ s f : Nat,
    results.foldl
        (fun acc r => if r.2 then (acc.1 + 1, acc.2) else (acc.1, acc.2 + 1)) (s, f)
      = (s + results.countP (fun r => r.2), f + results.countP (fun r => !r.2)) := by
  induction results with
  | nil => intro s f; simp
  | cons r rest ih =>
    intro s f
    obtain ⟨p, flag⟩ := r
    cases flag <;> simp [List.countP_cons, ih, Prod.mk.injEq] <;> omega

theorem countP_flag_sum (results : List (String × Bool)) :
    results.countP (fun r => r.2) + results.countP (fun r => !r.2)
      = results.length := by
  induction results with
  | nil => rfl
  | cons r rest ih =>
    obtain ⟨p, flag⟩ := r
    cases flag <;> simp [List.countP_cons] <;> omega

/-- C8: for results delivered in any order, `tally` reports exactly the number
of true flags as successful and the number of false flags as failed, the two
summing to the number of tasks; in particular three successes give (3, 0). -/
theorem tally_spec : ∀ results : List (String × Bool),
    tally results = (results.countP (fun r => r.2), results.countP (fun r => !r.2)) ∧
      (tally results).1 + (tally results).2 = results.length ∧
      ∀ a b c : String, tally [(a, true), (b, true), (c, true)] = (3, 0) := by
  intro results
  have h : tally results
      = (results.countP (fun r => r.2), results.countP (fun r => !r.2)) := by
    rw [tally, tally_foldl]
    simp
  refine ⟨h, ?_, ?_⟩
  · rw [h]
    exact countP_flag_sum results
  · intro a b c
    rfl

end NycScraper
